import Mathlib

/-!
Verification of `foliant/preprocessors/utils/preprocessor_ext.py`.

The Python module is shallowly embedded below:
* strings are modelled as `List Char` where slicing matters (tag contexts,
  match objects) and as `String` elsewhere;
* Python slicing `s[a:b]` (with non-negative clamped bounds) is `pySlice`;
* a compiled regex match object is `ReMatch` (`source = match.string`,
  `mstart/mend = match.span()`);
* a Python local variable that may be read before assignment is an
  `Option`, and reading it unassigned raises, modelled with `Except`.
-/

set_option autoImplicit false
set_option maxRecDepth 8000

namespace PreprocessorExt

/-- Python slice `s[a:b]` for `0 ≤ a`, `0 ≤ b`: out-of-range indices are
clamped and an empty range gives `[]`, exactly as `List.drop`/`List.take`
behave on `Nat`. -/
def pySlice (s : List Char) (a b : Nat) : List Char :=
  (s.drop a).take (b - a)

/-- A regex match object, as used by `get_tag_context` and `allow_fail`:
`source` is `match.string`, and `(mstart, mend) = match.span()` with
`mstart ≤ mend ≤ source.length` for any genuine match. -/
structure ReMatch where
  source : List Char
  mstart : Nat
  mend : Nat
deriving Repr, DecidableEq

/-- `match.group(0)`: the matched text `source[mstart:mend]`. -/
def ReMatch.group0 (m : ReMatch) : List Char :=
  pySlice m.source m.mstart m.mend

/-- Embedding of `BasePreprocessorExt.get_tag_context`.  Mirrors the Python
body line by line: `start = max(0, match.start() - limit)` (on `Nat` the
truncated subtraction already clamps at `0`), `end = min(len(source),
match.end() + limit)`, an accumulated `result` string, the
`span[1] - span[0] > limit and not full_tag` branch with breakpoints
`bp1 = match.start() + limit // 2` and `bp2 = match.end() - limit // 2`,
and the two `...` crops. -/
def get_tag_context (source : List Char) (mstart mend : Nat)
    (limit : Nat := 100) (full_tag : Bool := false) : List Char :=
  let start := max 0 (mstart - limit)
  let stop := min source.length (mend + limit)
  let result := if start ≠ 0 then "...".data else []
  let result := result ++
    (if limit < mend - mstart ∧ full_tag = false then
      let bp1 := mstart + limit / 2
      let bp2 := mend - limit / 2
      pySlice source start bp1 ++ " <...> ".data ++ pySlice source bp2 stop
    else
      pySlice source start stop)
  let result := if stop ≠ source.length then result ++ "...".data else result
  result

/-- The specification's formula for the tag context, written from the
spec's words: compute `ctx_start = max(0, start - limit)` and
`ctx_end = min(len(source), end + limit)`; if the matched span's length
exceeds `limit` and `full_tag` is false, return
`source[ctx_start : match.start + limit/2] ++ ' <...> ' ++
source[match.end - limit/2 : ctx_end]`, otherwise
`source[ctx_start : ctx_end]`; prepend `...` iff `ctx_start ≠ 0` and
append `...` iff `ctx_end ≠ len(source)`. -/
def get_tag_context_spec (source : List Char) (mstart mend : Nat)
    (limit : Nat) (full_tag : Bool) : List Char :=
  let ctx_start := max 0 (mstart - limit)
  let ctx_end := min source.length (mend + limit)
  let core :=
    if limit < mend - mstart ∧ full_tag = false then
      pySlice source ctx_start (mstart + limit / 2) ++ " <...> ".data ++
        pySlice source (mend - limit / 2) ctx_end
    else
      pySlice source ctx_start ctx_end
  (if ctx_start ≠ 0 then "...".data else []) ++ core ++
    (if ctx_end ≠ source.length then "...".data else [])

/-! ## `get_options`: the XML-attribute scanner

The Python code scans `options_string` with
`r'(?P<key>[A-Za-z_:][0-9A-Za-z_:\-\.]*)=(\x27|")(?P<value>.+?)\2'`
(DOTALL) via `finditer` and builds a dict, loading each value with
`yaml.load`.  The scanner below implements exactly that pattern:
a key is a maximal run of key characters (backtracking the greedy star
cannot help, since `=` is not a key character), the opening quote fixes
the closing quote via the backreference, and the lazy `.+?` takes the
shortest non-empty run of arbitrary characters up to the next closing
quote.  `finditer` yields non-overlapping matches left to right,
restarting after each match. -/

/-- The single-quote character `'` (`Char.ofNat 39`). -/
def singleQuote : Char := Char.ofNat 39

/-- The double-quote character `"` (`Char.ofNat 34`). -/
def doubleQuote : Char := Char.ofNat 34

/-- First character of a key: the class `[A-Za-z_:]`. -/
def isKeyStart (c : Char) : Bool :=
  c.isAlpha || c = '_' || c = ':'

/-- Continuation character of a key: the class `[0-9A-Za-z_:\-\.]`. -/
def isKeyChar (c : Char) : Bool :=
  c.isAlphanum || c = '_' || c = ':' || c = '-' || c = '.'

/-- Split `l` at the first occurrence of the closing quote `q`:
returns the characters before it and the rest after it. -/
def findCloseQuote (q : Char) : List Char → Option (List Char × List Char)
  | [] => none
  | c :: rest =>
    if c = q then some ([], rest)
    else
      match findCloseQuote q rest with
      | some (v, r) => some (c :: v, r)
      | none => none

/-- The lazy `.+?` up to the backreferenced quote `q`: at least one value
character (which may itself be `q`), then everything up to the first
closing `q`.  Returns the value and the input after the closing quote. -/
def scanValue (q : Char) : List Char → Option (List Char × List Char)
  | [] => none
  | c :: rest =>
    match findCloseQuote q rest with
    | some (v, r) => some (c :: v, r)
    | none => none

/-- Try to match one `key=(\x27|")value\2` option starting exactly at the
head of `l`.  Returns `(key, value, rest-after-match)` on success. -/
def matchOptionAt : List Char → Option (List Char × List Char × List Char)
  | [] => none
  | c :: rest =>
    if isKeyStart c then
      match rest.dropWhile isKeyChar with
      | '=' :: q :: tl =>
        if q = singleQuote ∨ q = doubleQuote then
          match scanValue q tl with
          | some (v, after) => some (c :: rest.takeWhile isKeyChar, v, after)
          | none => none
        else none
      | _ => none
    else none

/-- `finditer` over the option pattern: try a match at each position,
left to right; on a match, emit it and continue after its end.  The
fuel argument is only there to make the recursion structural; `fuel =
l.length` always suffices because every step consumes at least one
character (see `findOptionsAux_fuel`). -/
def findOptionsAux : Nat → List Char → List (List Char × List Char)
  | 0, _ => []
  | _, [] => []
  | fuel + 1, c :: rest =>
    match matchOptionAt (c :: rest) with
    | some (k, v, after) => (k, v) :: findOptionsAux fuel after
    | none => findOptionsAux fuel rest

/-- All `key=value` raw (undecoded) option matches of `l`, left to right. -/
def findOptions (l : List Char) : List (List Char × List Char) :=
  findOptionsAux l.length l

/-- A typed option value, after `yaml.load`: the Python signature is
`Dict[str, OptionValue]` with `OptionValue = int or float or bool or str`
(no float scalar appears in the documented behavior, so the model keeps
integers, booleans and strings). -/
inductive OptionValue : Type where
  | int : Int → OptionValue
  | bool : Bool → OptionValue
  | str : String → OptionValue
deriving Repr, DecidableEq

/-- Digits to a natural number, most significant first. -/
def digitsToNat (v : List Char) : Nat :=
  v.foldl (fun n c => n * 10 + (c.toNat - 48)) 0

/-- Modelled from the spec: `yaml.load` is the external PyYAML scalar
loader, not code of this repository.  Restricted to the scalar classes
the spec documents for `get_options`: a non-empty digit string becomes
an `int`, the YAML boolean literals become `bool`, everything else is
kept as a plain string. -/
def yamlLoadScalar (v : List Char) : OptionValue :=
  if v ≠ [] ∧ v.all Char.isDigit then OptionValue.int (Int.ofNat (digitsToNat v))
  else if v = "true".data ∨ v = "True".data ∨ v = "TRUE".data then OptionValue.bool true
  else if v = "false".data ∨ v = "False".data ∨ v = "FALSE".data then OptionValue.bool false
  else OptionValue.str (String.mk v)

/-- Python `dict` insertion `d[k] = v`: if the key is present, its value
is updated in place (keeping the original position); otherwise the pair
is appended, preserving insertion order. -/
def dictInsert {α : Type} (d : List (String × α)) (p : String × α) :
    List (String × α) :=
  if d.any (fun q => q.1 = p.1) then
    d.map (fun q => if q.1 = p.1 then p else q)
  else d ++ [p]

/-- Build a Python dict from a list of pairs, left to right (the dict
comprehension over `finditer` matches): a later pair with the same key
overwrites the earlier value. -/
def dictOf {α : Type} (ps : List (String × α)) : List (String × α) :=
  ps.foldl dictInsert []

/-- First-match lookup in an association list (the unique binding of a
key in a well-formed dict). -/
def dictLookup {α : Type} (k : String) : List (String × α) → Option α
  | [] => none
  | p :: rest => if p.1 = k then some p.2 else dictLookup k rest

/-- Embedding of `BasePreprocessorExt.get_options`: empty input returns
the empty dict immediately; otherwise scan the option pattern over the
string and build the dict of `yaml.load`ed values. -/
def get_options (options_string : String) : List (String × OptionValue) :=
  if options_string = "" then []
  else
    dictOf ((findOptions options_string.data).map
      (fun kv => (String.mk kv.1, yamlLoadScalar kv.2)))

/-! ## `_warning`: the warning sink

The Python body builds `output_message` (prefixed with
`[current_filename] ` when the current-file state is truthy), but
assigns `log_message` only inside `if context:`.  The later reads of
`log_message` — in the `if error:` branch, in the `if self.debug:`
branch and in the final `self.logger.warning(log_message)` — therefore
raise `UnboundLocalError` whenever `context` is empty.  The local is
modelled as an `Option String` (`none` = unassigned) and a read of the
unassigned local throws. -/

/-- Embedding of `BasePreprocessorExt._warning`.  On success returns the
pair (line printed to the user-facing stream — `none` under `quiet`,
modelling `foliant.utils.output` — , message passed to
`logger.warning`). -/
def warning (current_filename msg context error : String)
    (debug quiet : Bool) : Except String (Option String × String) := do
  let output_message :=
    (if current_filename ≠ "" then "[" ++ current_filename ++ "] " else "") ++ msg
  let log_message : Option String :=
    if context ≠ "" then
      some (output_message ++ "\nContext:\n---\n" ++ context ++ "\n---")
    else none
  let log_message : Option String ←
    if error ≠ "" then
      match log_message with
      | some lm => pure (some (lm ++ "\nException:\n---\n" ++ error ++ "\n---"))
      | none => throw "UnboundLocalError"
    else pure log_message
  let output_message ←
    if debug then
      match log_message with
      | some lm => pure lm
      | none => throw "UnboundLocalError"
    else pure output_message
  let printed : Option String :=
    if quiet then none else some ("WARNING: " ++ output_message)
  match log_message with
  | some lm => pure (printed, lm)
  | none => throw "UnboundLocalError"

/-! ## `allow_fail`: the fault-tolerant invoker -/

/-- A Python exception value as observed by the `except Exception as e`
handler of `allow_fail`: `toStr` is `str(e)` and `trace` is
`traceback.format_exc()`. -/
structure PyErr where
  toStr : String
  trace : String
deriving Repr, DecidableEq

/-- The arguments of one `self._warning(...)` call made by the wrapper. -/
structure WarnArgs where
  msg : String
  context : String
  error : String
deriving Repr, DecidableEq

/-- Embedding of the `allow_fail(msg)` decorator applied to a
tag-processing function `func` (default
`msg = "Failed to process tag."`).  `current_filename`, `debug` and
`quiet` are the `self` state read by `_warning`.  Returns the wrapper's
outcome — `Except.error` when an exception propagates out of the wrapper
— together with the list of `_warning` calls made (the call is recorded
even when `_warning` itself raises, since the wrapper did invoke it). -/
def allow_fail (msg : String) (func : ReMatch → Except PyErr (List Char))
    (current_filename : String) (debug quiet : Bool) (m : ReMatch) :
    Except String (List Char) × List WarnArgs :=
  match func m with
  | Except.ok res => (Except.ok res, [])
  | Except.error e =>
    let args : WarnArgs :=
      { msg := msg ++ " " ++ e.toStr
        context := String.mk (get_tag_context m.source m.mstart m.mend 100 false)
        error := e.trace }
    ((warning current_filename args.msg args.context args.error debug quiet).map
        (fun _ => m.group0),
      [args])

/-! ## `_process_tags_for_all_files`: the batch driver

The loop walks `working_dir.rglob('*.md')`, sets
`current_filename = Path(p).relative_to(working_dir)`, reads the file,
applies `self.pattern.sub(func, content)` and writes the result back
only when it is truthy; after the loop `current_filename` is reset to
`''`.  The file listing is a list of `(absolute path, content)` pairs,
the compiled regex substitution is an opaque total function
`sub : String → String` (tag failures inside it are absorbed by
`allow_fail`), and the state records the writes performed and — as
instrumentation — the value of `current_filename` at the moment each
file was processed. -/

/-- `Path(p).relative_to(wd)` for a path of the form `wd ++ "/" ++ rel`:
drop the working-directory prefix and the separator. -/
def relative_to (wd p : String) : String :=
  p.drop (wd.length + 1)

/-- The mutable state touched by the batch driver. -/
structure BatchState where
  /-- `self.current_filename`. -/
  current_filename : String
  /-- The `(path, new content)` writes performed so far. -/
  writes : List (String × String)
  /-- `current_filename` as it stood when each file was processed. -/
  trace : List String
deriving Repr, DecidableEq

/-- `self.current_filename` as set by `BasePreprocessorExt.__init__`. -/
def init_current_filename : String := ""

/-- One iteration of the driver loop: set `current_filename`, read the
file, substitute, write back only a truthy (non-empty) result. -/
def processFile (sub : String → String) (wd : String)
    (st : BatchState) (file : String × String) : BatchState :=
  let fname := relative_to wd file.1
  let content := file.2
  let processed_content := sub content
  { current_filename := fname
    writes := st.writes ++
      (if processed_content ≠ "" then [(file.1, processed_content)] else [])
    trace := st.trace ++ [fname] }

/-- Embedding of `BasePreprocessorExt._process_tags_for_all_files`:
fold the loop body over the file listing, then reset
`current_filename` to `''`. -/
def process_tags_for_all_files (sub : String → String) (wd : String)
    (files : List (String × String)) (st : BatchState) : BatchState :=
  let final := files.foldl (processFile sub wd) st
  { final with current_filename := "" }

/-! ## Helper lemmas -/

theorem pySlice_length (s : List Char) (a b : Nat) :
    (pySlice s a b).length = min (b - a) (s.length - a) := by
  simp [pySlice]

theorem pySlice_mono_right {c : Char} {s : List Char} {a b b' : Nat}
    (h : b ≤ b') (hc : c ∈ pySlice s a b) : c ∈ pySlice s a b' := by
  have e : pySlice s a b = (pySlice s a b').take (b - a) := by
    unfold pySlice
    rw [List.take_take, Nat.min_eq_left (by omega)]
  rw [e] at hc
  exact List.mem_of_mem_take hc

theorem pySlice_mono_left {c : Char} {s : List Char} {a a' b : Nat}
    (ha : a' ≤ a) (hab : a ≤ b) (hc : c ∈ pySlice s a b) :
    c ∈ pySlice s a' b := by
  unfold pySlice at hc ⊢
  have e1 : s.drop a = (s.drop a').drop (a - a') := by
    rw [List.drop_drop]
    congr 1
    omega
  rw [e1, List.take_drop] at hc
  have hc' := List.mem_of_mem_drop hc
  have e2 : a - a' + (b - a) = b - a' := by omega
  rw [e2] at hc'
  exact hc'

theorem get_tag_context_unfold (source : List Char) (mstart mend limit : Nat)
    (full_tag : Bool) :
    get_tag_context source mstart mend limit full_tag =
      (if max 0 (mstart - limit) ≠ 0 then "...".data else []) ++
        (if limit < mend - mstart ∧ full_tag = false then
          pySlice source (max 0 (mstart - limit)) (mstart + limit / 2) ++
            " <...> ".data ++
            pySlice source (mend - limit / 2)
              (min source.length (mend + limit))
        else
          pySlice source (max 0 (mstart - limit))
            (min source.length (mend + limit))) ++
        (if min source.length (mend + limit) ≠ source.length then "...".data
         else []) := by
  unfold get_tag_context
  by_cases h : min source.length (mend + limit) ≠ source.length <;>
    simp [h, List.append_assoc]

/-! ## C1 — the warning sink raises on empty context -/

/-- C1: the claim states that `_warning` never raises and that empty
`context`/`error` blocks are simply omitted.  The code contradicts it:
`log_message` is assigned only under `if context:`, so a call with empty
context — with or without an error — raises `UnboundLocalError`; only a
call with a non-empty context produces the promised short and long
forms. -/
theorem claim_C1_warning_raises_on_empty_context :
    warning "" "msg" "" "" false false = Except.error "UnboundLocalError" ∧
    warning "file.md" "msg" "" "boom" false false =
      Except.error "UnboundLocalError" ∧
    warning "file.md" "msg" "ctx" "" false false =
      Except.ok (some "WARNING: [file.md] msg",
        "[file.md] msg\nContext:\n---\nctx\n---") :=
  ⟨rfl, rfl, rfl⟩

/-! ## C3 — `allow_fail` on a failing match -/

/-- C3: the claim states that a failing tag function never lets the
failure propagate and always returns `match.group(0)` with exactly one
warning call.  For a failing match whose tag context is empty (a match
on an empty source string) the `_warning` call inside the handler
raises `UnboundLocalError`, which propagates out of the wrapper; for a
match with a non-empty context the claimed behavior does hold
(`match.group(0)` returned, exactly one warning call). -/
theorem claim_C3_allow_fail_empty_source_propagates :
    (allow_fail "Failed to process tag."
        (fun _ => Except.error ⟨"boom", "Traceback"⟩) "" false false
        ⟨[], 0, 0⟩).1 = Except.error "UnboundLocalError" ∧
    allow_fail "Failed to process tag."
        (fun _ => Except.error ⟨"boom", "Traceback"⟩) "" false false
        ⟨"abc".data, 0, 3⟩ =
      (Except.ok "abc".data,
        [⟨"Failed to process tag. boom", "abc", "Traceback"⟩]) :=
  ⟨rfl, rfl⟩

/-! ## C6 — the context formula from the spec -/

/-- C6: for every match and limit, `get_tag_context` returns exactly the
spec's formula — `source[ctx_start : match.start + limit/2] ++ ' <...> '
++ source[match.end - limit/2 : ctx_end]` when the span exceeds `limit`
and `full_tag` is false, `source[ctx_start : ctx_end]` otherwise, with
`...` prepended iff `ctx_start ≠ 0` and appended iff
`ctx_end ≠ len(source)`. -/
theorem claim_C6_get_tag_context_matches_spec (source : List Char)
    (mstart mend limit : Nat) (full_tag : Bool) :
    get_tag_context source mstart mend limit full_tag =
      get_tag_context_spec source mstart mend limit full_tag := by
  unfold get_tag_context get_tag_context_spec
  by_cases h : min source.length (mend + limit) ≠ source.length <;>
    simp [h, List.append_assoc]

/-! ## C7 — the concrete example -/

/-- C7: for `source = "0123456789ABCDEFGHIJ"`, a match spanning
`[5,15)` and `limit = 3`, the context bounds are `ctx_start = 2` and
`ctx_end = 18`; the match length `10` exceeds the limit `3`, so the
result is the `<...>`-truncated form
`'...' ++ source[2:6] ++ ' <...> ' ++ source[14:18] ++ '...'`. -/
theorem claim_C7_concrete_context :
    get_tag_context "0123456789ABCDEFGHIJ".data 5 15 3 false =
      "...2345 <...> EFGH...".data ∧
    max 0 (5 - 3) = 2 ∧
    min "0123456789ABCDEFGHIJ".data.length (15 + 3) = 18 ∧
    ¬ (15 - 5 ≤ 3) ∧
    get_tag_context "0123456789ABCDEFGHIJ".data 5 15 3 false =
      "...".data ++ pySlice "0123456789ABCDEFGHIJ".data 2 6 ++
        " <...> ".data ++ pySlice "0123456789ABCDEFGHIJ".data 14 18 ++
        "...".data :=
  ⟨by decide, by decide, by decide, by decide, by decide⟩

/-! ## C2 — the warning arguments of `allow_fail` -/

/-- C2 counterexample: for a failing match of length 120 (longer than
the default limit 100), the wrapper does NOT pass the claim's
arguments: the context is the truncated (`full_tag = False`) rendering,
not the full-tag one, and the message is the decorator's message, a
space, and `str(e)` — not their plain concatenation.  Both fields of
the one recorded call differ from the claim's prediction. -/
theorem claim_C2_counterexample :
    (allow_fail "Failed to process tag."
          (fun _ => Except.error ⟨"boom", "Trace"⟩) "" false false
          ⟨List.replicate 120 'a', 0, 120⟩).2.map WarnArgs.context ≠
        [String.mk (get_tag_context (List.replicate 120 'a') 0 120 100 true)] ∧
    (allow_fail "Failed to process tag."
          (fun _ => Except.error ⟨"boom", "Trace"⟩) "" false false
          ⟨List.replicate 120 'a', 0, 120⟩).2.map WarnArgs.msg ≠
        ["Failed to process tag." ++ "boom"] :=
  ⟨by decide, by decide⟩

/-- C2 as amended: on any raised error the wrapper makes exactly one
warning call, whose message is the decorator's message, a space, and
the stringified error, whose context is the Context Extractor's output
for the match with the default limit 100 and `full_tag = False` (the
truncating mode), and whose error block is the formatted trace. -/
theorem claim_C2_allow_fail_warning_args (msg current_filename : String)
    (debug quiet : Bool) (func : ReMatch → Except PyErr (List Char))
    (m : ReMatch) (e : PyErr) (h : func m = Except.error e) :
    (allow_fail msg func current_filename debug quiet m).2 =
      [⟨msg ++ " " ++ e.toStr,
        String.mk (get_tag_context m.source m.mstart m.mend 100 false),
        e.trace⟩] := by
  unfold allow_fail
  rw [h]

theorem claim_C2_allow_fail_warning_args_witness :
    (fun (_ : ReMatch) =>
        (Except.error ⟨"boom", "Trace"⟩ : Except PyErr (List Char)))
        ⟨"abc".data, 0, 3⟩ = Except.error ⟨"boom", "Trace"⟩ ∧
    (allow_fail "Failed to process tag."
        (fun _ => Except.error ⟨"boom", "Trace"⟩) "f.md" false false
        ⟨"abc".data, 0, 3⟩).2 =
      [⟨"Failed to process tag." ++ " " ++ "boom",
        String.mk (get_tag_context "abc".data 0 3 100 false), "Trace"⟩] :=
  ⟨rfl,
    claim_C2_allow_fail_warning_args "Failed to process tag." "f.md"
      false false _ ⟨"abc".data, 0, 3⟩ ⟨"boom", "Trace"⟩ rfl⟩

/-! ## C4 and C5 — the batch driver -/

theorem foldl_processFile_trace (sub : String → String) (wd : String) :
    ∀ (files : List (String × String)) (st : BatchState),
      (files.foldl (processFile sub wd) st).trace =
        st.trace ++ files.map (fun f => relative_to wd f.1) := by
  intro files
  induction files with
  | nil => intro st; simp
  | cons f rest ih =>
    intro st
    simp [List.foldl_cons, ih, processFile]

theorem foldl_processFile_writes (sub : String → String) (wd : String) :
    ∀ (files : List (String × String)) (st : BatchState),
      (files.foldl (processFile sub wd) st).writes =
        st.writes ++ files.filterMap
          (fun f => if sub f.2 = "" then none else some (f.1, sub f.2)) := by
  intro files
  induction files with
  | nil => intro st; simp
  | cons f rest ih =>
    intro st
    by_cases h : sub f.2 = "" <;>
      simp [List.foldl_cons, ih, processFile, h]

/-- C4: the current-file state is `''` right after `__init__`, the batch
driver resets it to `''` once the traversal completes (the substitution
function is total — per-file tag failures are absorbed by `allow_fail` —
so the traversal always reaches the reset), and while each file is
processed the state holds that file's path relative to the working
directory, as recorded by the instrumentation trace. -/
theorem claim_C4_current_filename_lifecycle (sub : String → String)
    (wd : String) (files : List (String × String)) (st : BatchState) :
    init_current_filename = "" ∧
    (process_tags_for_all_files sub wd files st).current_filename = "" ∧
    (process_tags_for_all_files sub wd files st).trace =
      st.trace ++ files.map (fun f => relative_to wd f.1) :=
  ⟨rfl, rfl, foldl_processFile_trace sub wd files st⟩

/-- C5: the batch driver writes a file back exactly when the
substitution result over its content is non-empty, and then writes that
result; a file whose substitution result is empty (falsy) produces no
write at all, so its on-disk content is unchanged. -/
theorem claim_C5_writes_only_nonempty (sub : String → String) (wd : String)
    (files : List (String × String)) (st : BatchState) :
    (process_tags_for_all_files sub wd files st).writes =
      st.writes ++ files.filterMap
        (fun f => if sub f.2 = "" then none else some (f.1, sub f.2)) :=
  foldl_processFile_writes sub wd files st

/-! ## Scanner lemmas -/

theorem findCloseQuote_length (q : Char) :
    ∀ (l v r : List Char), findCloseQuote q l = some (v, r) →
      v.length + 1 + r.length = l.length := by
  intro l
  induction l with
  | nil => intro v r h; simp [findCloseQuote] at h
  | cons c rest ih =>
    intro v r h
    rw [findCloseQuote] at h
    split at h
    · simp only [Option.some.injEq, Prod.mk.injEq] at h
      have hv : v = [] := h.1.symm
      have hr : r = rest := h.2.symm
      subst hv
      subst hr
      simp only [List.length_nil, List.length_cons]
      omega
    · split at h
      · next v' r' heq =>
        simp only [Option.some.injEq, Prod.mk.injEq] at h
        have hlen := ih v' r' heq
        have hv : v = c :: v' := h.1.symm
        have hr : r = r' := h.2.symm
        subst hv
        subst hr
        simp only [List.length_cons]
        omega
      · exact absurd h (by simp)

theorem scanValue_spec (q : Char) (l v r : List Char)
    (h : scanValue q l = some (v, r)) :
    v ≠ [] ∧ v.length + 1 + r.length = l.length := by
  cases l with
  | nil => simp [scanValue] at h
  | cons c rest =>
    rw [scanValue] at h
    cases hfc : findCloseQuote q rest with
    | none => rw [hfc] at h; exact absurd h (by simp)
    | some vr =>
      obtain ⟨v', r'⟩ := vr
      rw [hfc] at h
      simp only [Option.some.injEq, Prod.mk.injEq] at h
      have hlen := findCloseQuote_length q rest v' r' hfc
      have hv : v = c :: v' := h.1.symm
      have hr : r = r' := h.2.symm
      subst hv
      subst hr
      refine ⟨by simp, ?_⟩
      simp only [List.length_cons]
      omega

theorem matchOptionAt_spec (l k v after : List Char)
    (h : matchOptionAt l = some (k, v, after)) :
    v ≠ [] ∧ after.length < l.length := by
  cases l with
  | nil => simp [matchOptionAt] at h
  | cons c rest =>
    rw [matchOptionAt] at h
    split at h
    · split at h
      · next q tl heq =>
        split at h
        · cases hsv : scanValue q tl with
          | none => rw [hsv] at h; exact absurd h (by simp)
          | some vr =>
            obtain ⟨v', after'⟩ := vr
            rw [hsv] at h
            simp only [Option.some.injEq, Prod.mk.injEq] at h
            obtain ⟨hv1, hv2, hv3⟩ := h
            obtain ⟨hv, hlen⟩ := scanValue_spec q tl v' after' hsv
            have hv' : v = v' := hv2.symm
            have ha' : after = after' := hv3.symm
            subst hv'
            subst ha'
            refine ⟨hv, ?_⟩
            have hsplit :
                rest.takeWhile isKeyChar ++ rest.dropWhile isKeyChar = rest :=
              List.takeWhile_append_dropWhile isKeyChar rest
            have hrest : (rest.takeWhile isKeyChar).length +
                (rest.dropWhile isKeyChar).length = rest.length := by
              rw [← List.length_append, hsplit]
            rw [heq] at hrest
            simp only [List.length_cons] at hrest ⊢
            omega
        · exact absurd h (by simp)
      · exact absurd h (by simp)
    · exact absurd h (by simp)

theorem findOptionsAux_values_ne_nil :
    ∀ (fuel : Nat) (l k v : List Char),
      (k, v) ∈ findOptionsAux fuel l → v ≠ [] := by
  intro fuel
  induction fuel with
  | zero => intro l k v h; simp [findOptionsAux] at h
  | succ fuel ih =>
    intro l k v h
    cases l with
    | nil => simp [findOptionsAux] at h
    | cons c rest =>
      rw [findOptionsAux] at h
      cases hm : matchOptionAt (c :: rest) with
      | none => rw [hm] at h; exact ih _ _ _ h
      | some kva =>
        obtain ⟨k', v', after⟩ := kva
        simp only [hm] at h
        rcases List.mem_cons.mp h with heq | h'
        · simp only [Prod.mk.injEq] at heq
          obtain ⟨rfl, rfl⟩ := heq
          exact (matchOptionAt_spec _ _ _ _ hm).1
        · exact ih _ _ _ h'

theorem findOptionsAux_congr :
    ∀ (fuel fuel' : Nat) (l : List Char), l.length ≤ fuel →
      l.length ≤ fuel' → findOptionsAux fuel l = findOptionsAux fuel' l := by
  intro fuel
  induction fuel with
  | zero =>
    intro fuel' l h h'
    have : l = [] := List.length_eq_zero.mp (Nat.le_zero.mp h)
    subst this
    cases fuel' <;> simp [findOptionsAux]
  | succ fuel ih =>
    intro fuel' l h h'
    cases l with
    | nil => cases fuel' <;> simp [findOptionsAux]
    | cons c rest =>
      cases fuel' with
      | zero => simp at h'
      | succ fuel'' =>
        rw [findOptionsAux, findOptionsAux]
        cases hm : matchOptionAt (c :: rest) with
        | none =>
          simp only [hm]
          simp only [List.length_cons] at h h'
          exact ih fuel'' rest (by omega) (by omega)
        | some kva =>
          obtain ⟨k', v', after⟩ := kva
          have hlt := (matchOptionAt_spec _ _ _ _ hm).2
          simp only [hm]
          simp only [List.length_cons] at h h' hlt
          rw [ih fuel'' after (by omega) (by omega)]

/-- Fuel adequacy: `fuel = l.length` fully evaluates the scan, so
`findOptions` is the honest denotation of `finditer` (every step of the
scan consumes at least one character). -/
theorem findOptionsAux_fuel (fuel : Nat) (l : List Char)
    (h : l.length ≤ fuel) : findOptionsAux fuel l = findOptions l :=
  findOptionsAux_congr fuel l.length l h le_rfl

/-! ## Dict lemmas -/

theorem dictLookup_map_overwrite {α : Type} (k : String) (v : α) :
    ∀ d : List (String × α), (∃ q ∈ d, q.1 = k) →
      dictLookup k (d.map (fun q => if q.1 = k then (k, v) else q)) =
        some v := by
  intro d
  induction d with
  | nil => intro h; simp at h
  | cons p rest ih =>
    intro h
    by_cases hp : p.1 = k
    · simp [dictLookup, hp]
    · have h' : ∃ q ∈ rest, q.1 = k := by
        rcases h with ⟨q, hq, hk⟩
        rcases List.mem_cons.mp hq with rfl | hq'
        · exact absurd hk hp
        · exact ⟨q, hq', hk⟩
      simp only [List.map_cons, if_neg hp]
      rw [dictLookup]
      rw [if_neg hp]
      exact ih h'

theorem dictLookup_append_of_keys_ne {α : Type} (k : String)
    (l : List (String × α)) :
    ∀ d : List (String × α), (∀ q ∈ d, q.1 ≠ k) →
      dictLookup k (d ++ l) = dictLookup k l := by
  intro d
  induction d with
  | nil => intro _; simp
  | cons p rest ih =>
    intro h
    have hp : p.1 ≠ k := h p (List.mem_cons_self p rest)
    rw [List.cons_append, dictLookup, if_neg hp]
    exact ih (fun q hq => h q (List.mem_cons_of_mem p hq))

theorem dictLookup_dictInsert_self {α : Type} (d : List (String × α))
    (k : String) (v : α) : dictLookup k (dictInsert d (k, v)) = some v := by
  unfold dictInsert
  split
  · next h =>
    apply dictLookup_map_overwrite
    rcases List.any_eq_true.mp h with ⟨q, hq, hdec⟩
    exact ⟨q, hq, of_decide_eq_true hdec⟩
  · next h =>
    rw [dictLookup_append_of_keys_ne]
    · rw [dictLookup]
      simp
    · intro q hq hk
      exact h (List.any_eq_true.mpr ⟨q, hq, decide_eq_true hk⟩)

theorem dictOf_append_single {α : Type} (ps : List (String × α))
    (p : String × α) : dictOf (ps ++ [p]) = dictInsert (dictOf ps) p := by
  simp [dictOf, List.foldl_append]

theorem mem_dictInsert {α : Type} (d : List (String × α))
    (p q : String × α) (h : q ∈ dictInsert d p) : q ∈ d ∨ q = p := by
  unfold dictInsert at h
  split at h
  · rcases List.mem_map.mp h with ⟨orig, ho, heq⟩
    by_cases hc : orig.1 = p.1
    · right; rw [if_pos hc] at heq; exact heq.symm
    · left; rw [if_neg hc] at heq; exact heq ▸ ho
  · rcases List.mem_append.mp h with h' | h'
    · exact Or.inl h'
    · right; simpa using h'

theorem mem_dictOf {α : Type} :
    ∀ (ps acc : List (String × α)) (q : String × α),
      q ∈ ps.foldl dictInsert acc → q ∈ acc ∨ q ∈ ps := by
  intro ps
  induction ps with
  | nil => intro acc q h; exact Or.inl h
  | cons p rest ih =>
    intro acc q h
    rcases ih (dictInsert acc p) q h with h' | h'
    · rcases mem_dictInsert acc p q h' with h'' | h''
      · exact Or.inl h''
      · right; simp [h'']
    · right; simp [h']

theorem yamlLoadScalar_ne_empty_str {v : List Char} (hv : v ≠ []) :
    yamlLoadScalar v ≠ OptionValue.str "" := by
  unfold yamlLoadScalar
  split
  · simp
  · split
    · simp
    · split
      · simp
      · intro hcontra
        have hs : String.mk v = "" := by
          injection hcontra
        apply hv
        have := congrArg String.data hs
        simpa using this

/-! ## C9 — `get_options` examples and last-wins -/

/-- C9: `get_options('')` returns the empty mapping (the empty-string
guard returns before the pattern scan); the three-attribute example
yields the typed mapping `{a: 1, b: True, c: "x"}`; a key inserted last
always wins in the dict construction, and concretely
`get_options('a="1" a="2"')` returns `{a: 2}`. -/
theorem claim_C9_get_options_examples :
    get_options "" = [] ∧
    get_options "a=\"1\" b=\"true\" c=\"x\"" =
      [("a", OptionValue.int 1), ("b", OptionValue.bool true),
       ("c", OptionValue.str "x")] ∧
    (∀ (α : Type) (ps : List (String × α)) (k : String) (v : α),
        dictLookup k (dictOf (ps ++ [(k, v)])) = some v) ∧
    get_options "a=\"1\" a=\"2\"" = [("a", OptionValue.int 2)] := by
  refine ⟨by decide, by decide, ?_, by decide⟩
  intro α ps k v
  rw [dictOf_append_single]
  exact dictLookup_dictInsert_self _ _ _

/-! ## C10 — no empty attribute values -/

/-- C10: the value grammar `.+?` requires at least one character between
the quotes, so the scanner never produces an empty raw value, and no
entry of the mapping returned by `get_options` is the empty string (nor
a null — the model has no null constructor, matching the code, which
never produces one from a non-empty scalar). -/
theorem claim_C10_no_empty_values :
    (∀ (l : List Char) (kv : List Char × List Char),
        kv ∈ findOptions l → kv.2 ≠ []) ∧
    (∀ (s : String) (p : String × OptionValue),
        p ∈ get_options s → p.2 ≠ OptionValue.str "") := by
  constructor
  · intro l kv h
    exact findOptionsAux_values_ne_nil _ _ _ _ h
  · intro s p h
    unfold get_options at h
    split at h
    · simp at h
    · rcases mem_dictOf _ _ _ h with h' | h'
      · simp at h'
      · rcases List.mem_map.mp h' with ⟨kv, hkv, rfl⟩
        exact yamlLoadScalar_ne_empty_str
          (findOptionsAux_values_ne_nil _ _ _ _ hkv)

/-! ## C8 — length bound and character provenance of the context -/

/-- C8: for every match and limit, the context's length never exceeds
`limit*2` plus the length of the included match text (its `<...>`
truncation measures `limit/2 * 2 + 7` characters) plus the two possible
`...` crops, and every character of the result is either a decoration
character (from `...` or ` <...> `) or comes from the source slice
`[max(0, start - limit), min(len(source), end + limit))`. -/
theorem claim_C8_context_length_and_chars (source : List Char)
    (mstart mend limit : Nat) (full_tag : Bool)
    (h1 : mstart ≤ mend) (h2 : mend ≤ source.length) :
    (get_tag_context source mstart mend limit full_tag).length ≤
      limit * 2 +
        (if limit < mend - mstart ∧ full_tag = false then limit / 2 * 2 + 7
         else mend - mstart) + 6 ∧
    ∀ c ∈ get_tag_context source mstart mend limit full_tag,
      c ∈ pySlice source (max 0 (mstart - limit))
            (min source.length (mend + limit)) ∨
        c ∈ " .<>".data := by
  have hdiv : limit / 2 ≤ limit := Nat.div_le_self limit 2
  have l3 : ("...".data).length = 3 := rfl
  have l7 : ((" <...> ").data).length = 7 := rfl
  constructor
  · rw [get_tag_context_unfold]
    by_cases hb : limit < mend - mstart ∧ full_tag = false
    · obtain ⟨hb1, hb2⟩ := hb
      have hbT : limit < mend - mstart ∧ full_tag = false := ⟨hb1, hb2⟩
      by_cases hpre : mstart - limit = 0 <;>
        by_cases hpost :
            min source.length (mend + limit) = source.length <;>
          simp [hbT, hpre, hpost, pySlice, l3, l7, Nat.zero_max] <;> omega
    · by_cases hpre : mstart - limit = 0 <;>
        by_cases hpost :
            min source.length (mend + limit) = source.length <;>
          simp [hb, hpre, hpost, pySlice, l3, l7, Nat.zero_max] <;> omega
  · intro c hc
    have hdots : ∀ d : Char, d ∈ "...".data → d ∈ " .<>".data := by decide
    have hsep : ∀ d : Char, d ∈ " <...> ".data → d ∈ " .<>".data := by
      decide
    have hbodymem : ∀ d : Char,
        d ∈ (if limit < mend - mstart ∧ full_tag = false then
              pySlice source (max 0 (mstart - limit)) (mstart + limit / 2) ++
                " <...> ".data ++
                pySlice source (mend - limit / 2)
                  (min source.length (mend + limit))
            else
              pySlice source (max 0 (mstart - limit))
                (min source.length (mend + limit))) →
          d ∈ pySlice source (max 0 (mstart - limit))
                (min source.length (mend + limit)) ∨
            d ∈ " .<>".data := by
      intro d hd
      split at hd
      · next hcond =>
        rcases List.mem_append.mp hd with hd' | hd2
        · rcases List.mem_append.mp hd' with hd1 | hdsep
          · refine Or.inl (pySlice_mono_right ?_ hd1)
            have hcond1 := hcond.1
            omega
          · exact Or.inr (hsep d hdsep)
        · refine Or.inl (pySlice_mono_left ?_ ?_ hd2)
          · have hcond1 := hcond.1
            omega
          · omega
      · exact Or.inl hd
    rw [get_tag_context_unfold] at hc
    rcases List.mem_append.mp hc with hc' | hcpost
    · rcases List.mem_append.mp hc' with hcpre | hcbody
      · split at hcpre
        · exact Or.inr (hdots c hcpre)
        · exact absurd hcpre (List.not_mem_nil c)
      · exact hbodymem c hcbody
    · split at hcpost
      · exact Or.inr (hdots c hcpost)
      · exact absurd hcpost (List.not_mem_nil c)

theorem claim_C8_context_length_and_chars_witness :
    2 ≤ 3 ∧ 3 ≤ "abcdef".data.length ∧
    ((get_tag_context "abcdef".data 2 3 1 false).length ≤
        1 * 2 +
          (if 1 < 3 - 2 ∧ false = false then 1 / 2 * 2 + 7 else 3 - 2) + 6 ∧
      ∀ c ∈ get_tag_context "abcdef".data 2 3 1 false,
        c ∈ pySlice "abcdef".data (max 0 (2 - 1))
              (min "abcdef".data.length (3 + 1)) ∨
          c ∈ " .<>".data) :=
  ⟨by decide, by decide,
    claim_C8_context_length_and_chars "abcdef".data 2 3 1 false
      (by decide) (by decide)⟩

theorem claim_C10_no_empty_values_witness :
    ("a".data, "1".data) ∈ findOptions "a=\"1\"".data ∧
    ("a".data, "1".data).2 ≠ [] :=
  ⟨by decide,
    claim_C10_no_empty_values.1 "a=\"1\"".data ("a".data, "1".data)
      (by decide)⟩

end PreprocessorExt
